import Mathlib

/-!
Verification of the sycamore keyed-list reconciliation engine and the
`NodeRef` node-reference cell, against the repository's specification.

The repository sources available here are `packages/sycamore-core/src/noderef.rs`
(the Node Reference Cell) and `packages/sycamore/tests/web/keyed.rs` (the web
tests of the keyed list).  The `NodeRef` definitions below are shallow
embeddings of `noderef.rs`; the reconciler itself is not among the sources, so
its model is built from the specification (each such definition says so in its
doc comment).
-/

namespace Sycamore

/-! ## Node Reference Cell (`packages/sycamore-core/src/noderef.rs`)

`NodeRef<G>` is `Rc<RefCell<Option<G>>>`.  A single cell's state is therefore
an `Option` of a node.  A node of the backend (`GenericNode + Any`) carries a
runtime type (`Any::type_id`), which `try_get::<T>` downcasts against; we model
a node as a pair of a type tag and an identity. -/

/-- A rendered backend node: `ty` models `Any::type_id`, `ident` the node's
identity (which concrete node it is). -/
structure GNode where
  ty : Nat
  ident : Nat
  deriving Repr, DecidableEq

/-- The state of one `NodeRef` cell: `Rc<RefCell<Option<G>>>` dereferenced,
i.e. `Option<G>`. `NodeRef::new` creates `None`. -/
abbrev NodeRefState := Option GNode

/-- `NodeRef::new()`: `Self(Rc::new(RefCell::new(None)))`. -/
def NodeRef.new : NodeRefState := none

/-- `NodeRef::try_get::<T>`: borrows the cell, returns `None` if unset,
otherwise downcasts the stored node to `T` (`None` on a type mismatch). -/
def NodeRef.try_get (s : NodeRefState) (t : Nat) : Option GNode :=
  match s with
  | none => none
  | some n => if n.ty = t then some n else none

/-- `NodeRef::get::<T>`: `self.try_get().expect("NodeRef is not set")` — the
panic is modelled as `Except.error` carrying the panic message. -/
def NodeRef.get (s : NodeRefState) (t : Nat) : Except String GNode :=
  match NodeRef.try_get s t with
  | none => Except.error ("NodeRef is not set")
  | some n => Except.ok n

/-- `NodeRef::try_get_raw`: `self.0.borrow().clone()`. -/
def NodeRef.try_get_raw (s : NodeRefState) : Option GNode := s

/-- `NodeRef::set`: `*self.0.borrow_mut() = Some(node)` — an unconditional
overwrite of whatever the cell held. -/
def NodeRef.set (_s : NodeRefState) (n : GNode) : NodeRefState := some n

/-! To talk about `Clone` (which clones the `Rc`, aliasing the same cell) we
also model a store of cells: a `NodeRef` value is an index into the store, and
cloning copies the index while `new` allocates a fresh cell. -/

/-- The heap of `NodeRef` cells; each entry is one `Rc<RefCell<Option<G>>>`
allocation. -/
abbrev RefStore := List NodeRefState

/-- Allocating a `NodeRef` with `NodeRef::new` (or `Default::default`, which
delegates to `new`): a fresh cell holding `None`; returns the store and the new
reference (its index). -/
def RefStore.alloc (st : RefStore) : RefStore × Nat :=
  (List.append st [NodeRef.new], st.length)

/-- `Clone` on `NodeRef` clones the `Rc`: the clone refers to the same cell. -/
def RefStore.cloneRef (r : Nat) : Nat := r

/-- `NodeRef::set` through a reference: overwrites the referenced cell. -/
def RefStore.setRef (st : RefStore) (r : Nat) (n : GNode) : RefStore :=
  List.set st r (NodeRef.set (st.getD r none) n)

/-- `NodeRef::try_get_raw` through a reference: reads the referenced cell. -/
def RefStore.tryGetRawRef (st : RefStore) (r : Nat) : Option GNode :=
  NodeRef.try_get_raw (st.getD r none)

end Sycamore

namespace Sycamore

/-! ## Keyed-list reconciliation engine

The reconciler's implementation is not among the provided sources (only its web
tests, `packages/sycamore/tests/web/keyed.rs`, are), so the definitions in this
section are modelled from the specification, §3–§4.1.  In the tests the items
are the keys themselves (`key: |item| *item`), so an item is modelled by its
`Key`, a natural number.  Scope identities and output-node-sequence identities
are natural numbers drawn from a fresh-id counter, so that "same instance" is
expressible. -/

/-- Modelled from the spec: a View Cache entry
`(Key, ChildScope, OutputNodeSequence)`; `scope` is the ChildScope's identity,
`nodes` the OutputNodeSequence's identity, and `content` the row's currently
rendered content (set to the item when the row is created, updated only by the
row's own nested reactivity). -/
structure Row where
  key : Nat
  scope : Nat
  nodes : Nat
  content : Nat
  deriving Repr, DecidableEq

/-- Modelled from the spec: the operations the Reconciler issues against the
View Cache and the physical output tree. -/
inductive Op where
  | create (k : Nat)
  | remove (k : Nat)
  | move (k : Nat)
  deriving Repr, DecidableEq

/-- The key an operation acts on. -/
def Op.opKey : Op → Nat
  | Op.create k => k
  | Op.remove k => k
  | Op.move k => k

/-- Whether an operation is a physical move. -/
def Op.isMove : Op → Bool
  | Op.move _ => true
  | _ => false

/-- Modelled from the spec: the state of one keyed-list instance — the ordered
View Cache (`rows`), the fresh-identity counter (`next`), and the log of
ChildScope disposals performed so far (`disposed`, with multiplicity). -/
structure ListState where
  rows : List Row
  next : Nat
  disposed : List Nat
  deriving Repr, DecidableEq

/-- The current key order of the View Cache. -/
def oldKeys (st : ListState) : List Nat := st.rows.map Row.key

/-- The observable rendered output: each row's OutputNodeSequence, in cache
order. -/
def renderedNodes (st : ListState) : List Nat := st.rows.map Row.nodes

/-- The observable rendered text: each row's content, in cache order (the
tests' `text_content()`). -/
def renderedText (st : ListState) : List Nat := st.rows.map Row.content

/-- O(1)-lookup of a key's cache entry (`Key -> (ChildScope,
OutputNodeSequence)`). -/
def findRow : List Row → Nat → Option Row
  | [], _ => none
  | r :: rs, k => if r.key = k then some r else findRow rs k

/-- The position index of step 2 of the algorithm: `Key -> old index`. -/
def keyIdx : List Row → Nat → Option Nat
  | [], _ => none
  | r :: rs, k => if r.key = k then some 0 else (keyIdx rs k).map (· + 1)

/-- Whether a list of old indices is strictly increasing (already in
relatively correct order). -/
def incrB : List Nat → Bool
  | [] => true
  | [_] => true
  | a :: b :: t => decide (a < b) && incrB (b :: t)

/-- Picks a longest list among the candidates (`[]` if there are none). -/
def pickLongest : List (List Nat) → List Nat
  | [] => []
  | c :: cs => if (pickLongest cs).length < c.length then c else pickLongest cs

/-- Modelled from the spec, step 4: "Compute the longest increasing
subsequence of old-indices among retained items, in new order."  Computed
extensionally: a longest strictly increasing subsequence of `l`. -/
def lisOf (l : List Nat) : List Nat :=
  pickLongest (l.sublists.filter incrB)

/-- The retained rows of a pass, in new order, each paired with its old
index (step 2's bookkeeping for the move computation). -/
def retainedPairs (old : List Row) (new : List Nat) : List (Nat × Nat) :=
  new.filterMap (fun k => (keyIdx old k).map (fun i => (k, i)))

/-- The old indices of the retained rows, in new order — the permutation the
LIS is computed over. -/
def retainedIdx (old : List Row) (new : List Nat) : List Nat :=
  (retainedPairs old new).map Prod.snd

/-- Step 3: rows whose key is absent from the new key set are removed. -/
def removedRows (old : List Row) (new : List Nat) : List Row :=
  old.filter (fun r => !(new.contains r.key))

/-- Step 2, creates: keys of `new` absent from the old position index. -/
def createOps (old : List Row) (new : List Nat) : List Op :=
  (new.filter (fun k => (findRow old k).isNone)).map Op.create

/-- Step 4, moves: every retained row whose old index does not participate in
the longest increasing subsequence is physically moved. -/
def moveOps (old : List Row) (new : List Nat) : List Op :=
  ((retainedPairs old new).filter
      (fun p => !((lisOf (retainedIdx old new)).contains p.2))).map
    (fun p => Op.move p.1)

/-- Step 2/5: the View Cache's new row list, in new order.  A key present in
the old cache is a retain — its entry is reused unchanged; an absent key is a
create — a fresh ChildScope and OutputNodeSequence are allocated from the
counter and the per-item render function produces the row's content (one text
node showing the item, as in the tests). -/
def buildRows (old : List Row) : List Nat → Nat → List Row
  | [], _ => []
  | k :: ks, n =>
    match findRow old k with
    | some r => r :: buildRows old ks n
    | none => { key := k, scope := n, nodes := n + 1, content := k } :: buildRows old ks (n + 2)

/-- The fresh-id counter after building the new rows. -/
def buildNext (old : List Row) : List Nat → Nat → Nat
  | [], n => n
  | k :: ks, n =>
    match findRow old k with
    | some _ => buildNext old ks n
    | none => buildNext old ks (n + 2)

/-- Modelled from the spec, §4.1: one reconciliation pass.  The fast path for
identical sequences is modelled explicitly (the spec's remaining fast paths —
pure append, pure prepend, single trailing removal, disjoint replacement — are
observationally equivalent to the general case below and are not modelled
separately).  The general case removes the rows whose keys disappeared
(disposing each ChildScope, before any insertion or movement), builds the new
row order reusing every retained entry, and issues create operations for fresh
keys and move operations for the retained rows outside the longest increasing
subsequence.  Returns the new state and the operation log of the pass. -/
def reconcile (st : ListState) (new : List Nat) : ListState × List Op :=
  if oldKeys st = new then (st, [])
  else
    ({ rows := buildRows st.rows new st.next,
       next := buildNext st.rows new st.next,
       disposed := st.disposed ++ (removedRows st.rows new).map Row.scope },
     (removedRows st.rows new).map (fun r => Op.remove r.key) ++
       createOps st.rows new ++ moveOps st.rows new)

/-- Modelled from the spec: a nested-reactivity update of one retained row's
content ("handled outside the Reconciler" — it touches no list structure and
issues no operations). -/
def updateContent (st : ListState) (k : Nat) (v : Nat) : ListState × List Op :=
  ({ st with
      rows := st.rows.map (fun r => if r.key = k then { r with content := v } else r) },
   [])

/-- The well-formedness invariant of a list state: distinct rows own distinct
ChildScopes and distinct OutputNodeSequences, and every owned identity was
drawn from the counter (is below `next`). -/
def WF (st : ListState) : Prop :=
  (st.rows.map Row.scope).Nodup ∧ (st.rows.map Row.nodes).Nodup ∧
    ∀ r ∈ st.rows, r.scope < st.next ∧ r.nodes < st.next

instance (st : ListState) : Decidable (WF st) := by
  unfold WF; infer_instance

/-- The rendered fragment of a keyed list placed among sibling nodes:
modelled from the spec's public declarative surface — the list occupies one
contiguous region of its parent's children, here between static siblings
`front`/`back` and next to a second keyed list `stB` (the shape of the
`template_with_other_nodes_at_same_level` test; `front = back = []` and
`stB.rows = []` is the sole-content / top-level placement). -/
def parentChildren (front : List Nat) (stA stB : ListState) (back : List Nat) :
    List Nat :=
  front ++ (renderedNodes stA ++ (renderedNodes stB ++ back))

/-- The rendered form of an item sequence against a state: each item's row's
OutputNodeSequence, in item order. -/
def renderedForm (st : ListState) (items : List Nat) : List Nat :=
  items.filterMap (fun k => (findRow st.rows k).map Row.nodes)

/-! ### Supporting lemmas -/

theorem findRow_key_eq : ∀ {old : List Row} {k : Nat} {r : Row},
    findRow old k = some r → r.key = k := by
  intro old
  induction old with
  | nil => intro k r h; simp [findRow] at h
  | cons a as ih =>
      intro k r h
      unfold findRow at h
      split at h
      · cases h; assumption
      · exact ih h

theorem findRow_mem : ∀ {old : List Row} {k : Nat} {r : Row},
    findRow old k = some r → r ∈ old := by
  intro old
  induction old with
  | nil => intro k r h; simp [findRow] at h
  | cons a as ih =>
      intro k r h
      unfold findRow at h
      split at h
      · cases h; exact List.mem_cons_self _ _
      · exact List.mem_cons_of_mem _ (ih h)

theorem findRow_cons_of_ne {a : Row} {l : List Row} {k : Nat} (h : a.key ≠ k) :
    findRow (a :: l) k = findRow l k := by
  show (if a.key = k then some a else findRow l k) = findRow l k
  rw [if_neg h]

theorem findRow_cons_of_eq {a : Row} {l : List Row} {k : Nat} (h : a.key = k) :
    findRow (a :: l) k = some a := by
  show (if a.key = k then some a else findRow l k) = some a
  rw [if_pos h]

theorem findRow_isSome_of_mem : ∀ {old : List Row} {r : Row},
    r ∈ old → (findRow old r.key).isSome = true := by
  intro old
  induction old with
  | nil => intro r h; simp at h
  | cons a as ih =>
      intro r h
      by_cases hk : a.key = r.key
      · rw [findRow_cons_of_eq hk]; rfl
      · rw [findRow_cons_of_ne hk]
        rcases List.mem_cons.mp h with rfl | hmem
        · exact absurd rfl hk
        · exact ih hmem

theorem buildRows_cons_retained {old : List Row} {k : Nat} {ks : List Nat}
    {n : Nat} {r : Row} (h : findRow old k = some r) :
    buildRows old (k :: ks) n = r :: buildRows old ks n := by
  show (match findRow old k with
    | some r => r :: buildRows old ks n
    | none => { key := k, scope := n, nodes := n + 1, content := k } ::
        buildRows old ks (n + 2)) = r :: buildRows old ks n
  rw [h]

theorem buildRows_cons_fresh {old : List Row} {k : Nat} {ks : List Nat}
    {n : Nat} (h : findRow old k = none) :
    buildRows old (k :: ks) n
      = { key := k, scope := n, nodes := n + 1, content := k } ::
          buildRows old ks (n + 2) := by
  show (match findRow old k with
    | some r => r :: buildRows old ks n
    | none => { key := k, scope := n, nodes := n + 1, content := k } ::
        buildRows old ks (n + 2)) = _ :: buildRows old ks (n + 2)
  rw [h]

theorem buildRows_map_key (old : List Row) : ∀ (new : List Nat) (n : Nat),
    (buildRows old new n).map Row.key = new := by
  intro new
  induction new with
  | nil => intro n; rfl
  | cons k ks ih =>
      intro n
      cases h : findRow old k with
      | some r =>
          rw [buildRows_cons_retained h, List.map_cons, findRow_key_eq h, ih n]
      | none =>
          rw [buildRows_cons_fresh h, List.map_cons, ih (n + 2)]

theorem findRow_buildRows_retained : ∀ {new : List Nat} {old : List Row}
    {k : Nat} {r : Row} {n : Nat}, findRow old k = some r → k ∈ new →
    findRow (buildRows old new n) k = some r := by
  intro new
  induction new with
  | nil => intro old k r n _ hmem; simp at hmem
  | cons k' ks ih =>
      intro old k r n hfind hmem
      by_cases hk : k' = k
      case pos =>
        subst hk
        rw [buildRows_cons_retained hfind]
        exact findRow_cons_of_eq (findRow_key_eq hfind)
      case neg =>
        have hks : k ∈ ks := by
          rcases List.mem_cons.mp hmem with h2 | h2
          · exact absurd h2.symm hk
          · exact h2
        cases h : findRow old k' with
        | some r' =>
            rw [buildRows_cons_retained h,
              findRow_cons_of_ne (by rw [findRow_key_eq h]; exact hk)]
            exact ih hfind hks
        | none =>
            rw [buildRows_cons_fresh h, findRow_cons_of_ne hk]
            exact ih hfind hks

theorem renderedForm_self : ∀ (rs : List Row), (rs.map Row.key).Nodup →
    (rs.map Row.key).filterMap (fun k => (findRow rs k).map Row.nodes)
      = rs.map Row.nodes := by
  intro rs
  induction rs with
  | nil => intro _; rfl
  | cons r rs ih =>
      intro hnd
      have hhead : r.key ∉ rs.map Row.key := (List.nodup_cons.mp hnd).1
      have htail : (rs.map Row.key).Nodup := (List.nodup_cons.mp hnd).2
      have h2 : (rs.map Row.key).filterMap (fun k => (findRow (r :: rs) k).map Row.nodes)
          = (rs.map Row.key).filterMap (fun k => (findRow rs k).map Row.nodes) := by
        apply List.filterMap_congr
        intro a ha
        have hne : r.key ≠ a := fun h => hhead (h ▸ ha)
        rw [findRow_cons_of_ne hne]
      have hstep : ((r :: rs).map Row.key).filterMap
          (fun k => (findRow (r :: rs) k).map Row.nodes)
          = r.nodes :: (rs.map Row.key).filterMap
              (fun k => (findRow (r :: rs) k).map Row.nodes) := by
        rw [List.map_cons]
        simp [findRow_cons_of_eq (rfl : r.key = r.key)]
      rw [hstep, h2, ih htail, List.map_cons]

/-- C1: after a reconciliation pass the View Cache's key order — and with it
the observable rendered node order — equals the rendered form of the new item
sequence in order, for every shape of change (append, prepend/insert at front,
swap, delete from middle/start/end, clear are all instances of the universally
quantified `new`). -/
theorem reconcile_order_correct (st : ListState) (new : List Nat)
    (hnd : new.Nodup) :
    oldKeys (reconcile st new).1 = new ∧
    renderedNodes (reconcile st new).1 = renderedForm (reconcile st new).1 new := by
  have hkeys : oldKeys (reconcile st new).1 = new := by
    unfold reconcile
    split
    · next h => simpa [oldKeys] using h
    · exact buildRows_map_key st.rows new st.next
  refine ⟨hkeys, ?_⟩
  have hnd' : ((reconcile st new).1.rows.map Row.key).Nodup := by
    have : (reconcile st new).1.rows.map Row.key = new := hkeys
    rw [this]; exact hnd
  have h := renderedForm_self (reconcile st new).1.rows hnd'
  unfold renderedForm renderedNodes
  have hkeys' : (reconcile st new).1.rows.map Row.key = new := hkeys
  rw [hkeys'] at h
  exact h.symm

/-- C1 witness: mounting `[1, 2]` from the empty state. -/
theorem reconcile_order_correct_witness :
    ([1, 2] : List Nat).Nodup ∧
    (oldKeys (reconcile ⟨[], 0, []⟩ [1, 2]).1 = [1, 2] ∧
      renderedNodes (reconcile ⟨[], 0, []⟩ [1, 2]).1
        = renderedForm (reconcile ⟨[], 0, []⟩ [1, 2]).1 [1, 2]) :=
  ⟨by decide, reconcile_order_correct ⟨[], 0, []⟩ [1, 2] (by decide)⟩

/-- C2: a key present in both the old and the new sequence keeps its exact
View Cache entry across the pass: the same ChildScope identity and the same
OutputNodeSequence identity (the retained row is never re-created or
re-rendered). -/
theorem reconcile_retains_row (st : ListState) (new : List Nat) (k : Nat)
    (r : Row) (hfind : findRow st.rows k = some r) (hmem : k ∈ new) :
    findRow (reconcile st new).1.rows k = some r := by
  unfold reconcile
  split
  · simpa using hfind
  · exact findRow_buildRows_retained hfind hmem

/-- C2 witness: `[1, 2] → [1, 3]` retains row `1` with its original scope and
node-sequence identities. -/
theorem reconcile_retains_row_witness :
    (findRow (reconcile ⟨[], 0, []⟩ [1, 2]).1.rows 1 = some ⟨1, 0, 1, 1⟩ ∧
      1 ∈ [1, 3]) ∧
    findRow (reconcile (reconcile ⟨[], 0, []⟩ [1, 2]).1 [1, 3]).1.rows 1
      = some ⟨1, 0, 1, 1⟩ :=
  ⟨⟨by decide, by decide⟩,
    reconcile_retains_row (reconcile ⟨[], 0, []⟩ [1, 2]).1 [1, 3] 1 ⟨1, 0, 1, 1⟩
      (by decide) (by decide)⟩

/-- C4: reconciling with a sequence identical in content and order to the
current one is a no-op — the state (and with it the rendered output) is
unchanged and the operation log is empty: zero creates, zero removes, zero
moves. -/
theorem reconcile_identical_noop (st : ListState) (new : List Nat)
    (h : new = oldKeys st) :
    reconcile st new = (st, []) := by
  subst h
  unfold reconcile
  rw [if_pos rfl]

/-- C4 witness: re-setting `[1, 2]` over a cache already showing `[1, 2]`. -/
theorem reconcile_identical_noop_witness :
    ([1, 2] : List Nat) = oldKeys (reconcile ⟨[], 0, []⟩ [1, 2]).1 ∧
    reconcile (reconcile ⟨[], 0, []⟩ [1, 2]).1 [1, 2]
      = ((reconcile ⟨[], 0, []⟩ [1, 2]).1, []) :=
  ⟨by decide, reconcile_identical_noop (reconcile ⟨[], 0, []⟩ [1, 2]).1 [1, 2]
    (by decide)⟩

theorem buildRows_mem_cases : ∀ {new : List Nat} {old : List Row} {n : Nat}
    {x : Row}, x ∈ buildRows old new n →
    (x ∈ old ∧ x.key ∈ new) ∨ n ≤ x.nodes := by
  intro new
  induction new with
  | nil => intro old n x h; simp [buildRows] at h
  | cons k ks ih =>
      intro old n x h
      cases hf : findRow old k with
      | some r =>
          rw [buildRows_cons_retained hf] at h
          rcases List.mem_cons.mp h with rfl | h2
          · exact Or.inl ⟨findRow_mem hf, by
              rw [findRow_key_eq hf]; exact List.mem_cons_self _ _⟩
          · rcases ih h2 with ⟨h3, h4⟩ | h3
            · exact Or.inl ⟨h3, List.mem_cons_of_mem _ h4⟩
            · exact Or.inr h3
      | none =>
          rw [buildRows_cons_fresh hf] at h
          rcases List.mem_cons.mp h with rfl | h2
          · exact Or.inr (Nat.le_succ n)
          · rcases ih h2 with ⟨h3, h4⟩ | h3
            · exact Or.inl ⟨h3, List.mem_cons_of_mem _ h4⟩
            · exact Or.inr (Nat.le_of_succ_le (Nat.le_of_succ_le h3))

theorem count_eq_one_of_nodup_mem {l : List Nat} {a : Nat} (hnd : l.Nodup)
    (hmem : a ∈ l) : l.count a = 1 := by
  have h1 := List.nodup_iff_count_le_one.mp hnd a
  have h2 := List.count_pos_iff.mpr hmem
  omega

/-- C3: a key present in the old sequence but absent from the new one has its
ChildScope disposed exactly once by the pass, and its output nodes are absent
from the output tree afterwards; in particular clearing the collection
empties the output and disposes every scope. -/
theorem reconcile_disposes_removed (st : ListState) (new : List Nat) (k : Nat)
    (r : Row) (hwf : WF st) (hfind : findRow st.rows k = some r)
    (hk : k ∉ new) :
    (reconcile st new).1.disposed.count r.scope
        = st.disposed.count r.scope + 1 ∧
    r.nodes ∉ renderedNodes (reconcile st new).1 ∧
    ((reconcile st []).1.rows = [] ∧
      (reconcile st []).1.disposed = st.disposed ++ st.rows.map Row.scope) := by
  have hmem : r ∈ st.rows := findRow_mem hfind
  have hkey : r.key = k := findRow_key_eq hfind
  have hne : ¬ oldKeys st = new := by
    intro he
    apply hk
    rw [← he]
    exact hkey ▸ List.mem_map_of_mem Row.key hmem
  have hremoved : r ∈ removedRows st.rows new := by
    apply List.mem_filter.mpr
    refine ⟨hmem, ?_⟩
    rw [hkey]
    simp [hk]
  refine ⟨?_, ?_, ?_, ?_⟩
  · unfold reconcile
    rw [if_neg hne]
    show (st.disposed ++ (removedRows st.rows new).map Row.scope).count r.scope
      = st.disposed.count r.scope + 1
    rw [List.count_append]
    congr 1
    have hnd : ((removedRows st.rows new).map Row.scope).Nodup :=
      hwf.1.sublist ((List.filter_sublist st.rows).map Row.scope)
    exact count_eq_one_of_nodup_mem hnd (List.mem_map_of_mem Row.scope hremoved)
  · unfold reconcile
    rw [if_neg hne]
    show r.nodes ∉ (buildRows st.rows new st.next).map Row.nodes
    intro hcontra
    rcases List.mem_map.mp hcontra with ⟨x, hx, hxn⟩
    rcases buildRows_mem_cases hx with ⟨hxold, hxnew⟩ | hfresh
    · have : x = r := List.inj_on_of_nodup_map hwf.2.1 hxold hmem hxn
      subst this
      rw [hkey] at hxnew
      exact hk hxnew
    · have : r.nodes < st.next := ((hwf.2.2) r hmem).2
      omega
  · unfold reconcile
    split
    · next h =>
        have : st.rows = [] := List.map_eq_nil_iff.mp h
        simpa using this
    · rfl
  · unfold reconcile
    split
    · next h =>
        have h0 : st.rows = [] := List.map_eq_nil_iff.mp h
        simp [h0]
    · show st.disposed ++ (removedRows st.rows []).map Row.scope
        = st.disposed ++ st.rows.map Row.scope
      congr 1
      unfold removedRows
      simp

/-- C3 witness: `[1, 2, 3] → [1, 3]` disposes row `2`'s scope exactly once and
drops its nodes; also instantiates the clear case. -/
theorem reconcile_disposes_removed_witness :
    (WF (reconcile ⟨[], 0, []⟩ [1, 2, 3]).1 ∧
      findRow (reconcile ⟨[], 0, []⟩ [1, 2, 3]).1.rows 2 = some ⟨2, 2, 3, 2⟩ ∧
      (2 : Nat) ∉ [1, 3]) ∧
    ((reconcile (reconcile ⟨[], 0, []⟩ [1, 2, 3]).1 [1, 3]).1.disposed.count 2
        = (reconcile ⟨[], 0, []⟩ [1, 2, 3]).1.disposed.count 2 + 1 ∧
      (3 : Nat) ∉ renderedNodes (reconcile (reconcile ⟨[], 0, []⟩ [1, 2, 3]).1 [1, 3]).1 ∧
      ((reconcile (reconcile ⟨[], 0, []⟩ [1, 2, 3]).1 []).1.rows = [] ∧
        (reconcile (reconcile ⟨[], 0, []⟩ [1, 2, 3]).1 []).1.disposed
          = (reconcile ⟨[], 0, []⟩ [1, 2, 3]).1.disposed ++
              (reconcile ⟨[], 0, []⟩ [1, 2, 3]).1.rows.map Row.scope)) :=
  ⟨⟨by decide, by decide, by decide⟩,
    reconcile_disposes_removed (reconcile ⟨[], 0, []⟩ [1, 2, 3]).1 [1, 3] 2
      ⟨2, 2, 3, 2⟩ (by decide) (by decide) (by decide)⟩

theorem pickLongest_length_ge : ∀ {L : List (List Nat)} {c : List Nat},
    c ∈ L → c.length ≤ (pickLongest L).length := by
  intro L
  induction L with
  | nil => intro c h; simp at h
  | cons d ds ih =>
      intro c h
      unfold pickLongest
      rcases List.mem_cons.mp h with rfl | h2
      · split
        · exact Nat.le_refl _
        · next hn => exact Nat.le_of_not_lt hn
      · split
        · next hlt => exact Nat.le_trans (ih h2) (Nat.le_of_lt hlt)
        · exact ih h2

theorem pickLongest_mem_or_nil : ∀ (L : List (List Nat)),
    pickLongest L ∈ L ∨ pickLongest L = [] := by
  intro L
  induction L with
  | nil => exact Or.inr rfl
  | cons d ds ih =>
      unfold pickLongest
      split
      · exact Or.inl (List.mem_cons_self _ _)
      · rcases ih with h | h
        · exact Or.inl (List.mem_cons_of_mem _ h)
        · exact Or.inr h

theorem lisOf_sublist (l : List Nat) : List.Sublist (lisOf l) l := by
  rcases pickLongest_mem_or_nil (l.sublists.filter incrB) with h | h
  · exact List.mem_sublists.mp (List.mem_filter.mp h).1
  · unfold lisOf
    rw [h]
    exact List.nil_sublist l

theorem lisOf_maximal {l s : List Nat} (hsub : List.Sublist s l)
    (hincr : incrB s = true) : s.length ≤ (lisOf l).length :=
  pickLongest_length_ge
    (List.mem_filter.mpr ⟨List.mem_sublists.mpr hsub, hincr⟩)

theorem keyIdx_get : ∀ {old : List Row} {k : Nat} {i : Nat},
    keyIdx old k = some i →
    ∃ h : i < old.length, (old.get ⟨i, h⟩).key = k := by
  intro old
  induction old with
  | nil => intro k i h; simp [keyIdx] at h
  | cons r rs ih =>
      intro k i h
      unfold keyIdx at h
      split at h
      · cases h
        exact ⟨Nat.succ_pos _, by assumption⟩
      · rcases Option.map_eq_some'.mp h with ⟨j, hj, rfl⟩
        rcases ih hj with ⟨hlt, hget⟩
        exact ⟨Nat.succ_lt_succ hlt, hget⟩

theorem keyIdx_inj {old : List Row} {k k' : Nat} {i : Nat}
    (h : keyIdx old k = some i) (h' : keyIdx old k' = some i) : k = k' := by
  rcases keyIdx_get h with ⟨hlt, hget⟩
  rcases keyIdx_get h' with ⟨hlt', hget'⟩
  rw [← hget, ← hget']

theorem retainedPairs_cons_some {old : List Row} {k : Nat} {ks : List Nat}
    {i : Nat} (h : keyIdx old k = some i) :
    retainedPairs old (k :: ks) = (k, i) :: retainedPairs old ks := by
  unfold retainedPairs
  rw [List.filterMap_cons, h]
  rfl

theorem retainedPairs_cons_none {old : List Row} {k : Nat} {ks : List Nat}
    (h : keyIdx old k = none) :
    retainedPairs old (k :: ks) = retainedPairs old ks := by
  unfold retainedPairs
  rw [List.filterMap_cons, h]
  rfl

theorem retainedIdx_mem : ∀ {new : List Nat} {old : List Row} {i : Nat},
    i ∈ retainedIdx old new → ∃ k ∈ new, keyIdx old k = some i := by
  intro new old i h
  unfold retainedIdx at h
  rcases List.mem_map.mp h with ⟨p, hp, rfl⟩
  rcases List.mem_filterMap.mp hp with ⟨k, hk, hf⟩
  rcases Option.map_eq_some'.mp hf with ⟨j, hj, rfl⟩
  exact ⟨k, hk, hj⟩

theorem retainedIdx_nodup {old : List Row} : ∀ {new : List Nat},
    new.Nodup → (retainedIdx old new).Nodup := by
  intro new
  induction new with
  | nil => intro _; simp [retainedIdx, retainedPairs]
  | cons k ks ih =>
      intro hnd
      have hhead : k ∉ ks := (List.nodup_cons.mp hnd).1
      have htail : ks.Nodup := (List.nodup_cons.mp hnd).2
      cases hf : keyIdx old k with
      | some i =>
          have : retainedIdx old (k :: ks) = i :: retainedIdx old ks := by
            unfold retainedIdx
            rw [retainedPairs_cons_some hf, List.map_cons]
          rw [this]
          refine List.nodup_cons.mpr ⟨?_, ih htail⟩
          intro hcontra
          rcases retainedIdx_mem hcontra with ⟨k', hk', hfk'⟩
          rw [keyIdx_inj hf hfk'] at hhead
          exact hhead hk'
      | none =>
          have : retainedIdx old (k :: ks) = retainedIdx old ks := by
            unfold retainedIdx
            rw [retainedPairs_cons_none hf]
          rw [this]
          exact ih htail

theorem filter_mem_eq_of_sublist : ∀ {s l : List Nat}, List.Sublist s l →
    l.Nodup → l.filter (fun a => s.contains a) = s := by
  intro s l hsub
  induction hsub with
  | slnil => intro _; rfl
  | @cons s l a hsl ih =>
      intro hnd
      have hhead : a ∉ l := (List.nodup_cons.mp hnd).1
      have htail : l.Nodup := (List.nodup_cons.mp hnd).2
      rw [List.filter_cons]
      have hna : a ∉ s := fun hc => hhead (hsl.subset hc)
      rw [if_neg (by simpa using hna)]
      exact ih htail
  | @cons₂ s l a hsl ih =>
      intro hnd
      have hhead : a ∉ l := (List.nodup_cons.mp hnd).1
      have htail : l.Nodup := (List.nodup_cons.mp hnd).2
      rw [List.filter_cons]
      rw [if_pos (by simp)]
      congr 1
      have hcongr : l.filter (fun x => (a :: s).contains x)
          = l.filter (fun x => s.contains x) := by
        apply List.filter_congr
        intro x hx
        have hxa : x ≠ a := fun hc => hhead (hc ▸ hx)
        simp [hxa]
      rw [hcongr]
      exact ih htail

theorem removeOps_filter_isMove (rs : List Row) :
    ((rs.map (fun r => Op.remove r.key)).filter Op.isMove) = [] := by
  induction rs with
  | nil => rfl
  | cons r rs ih => simp [Op.isMove]

theorem createOps_filter_isMove (old : List Row) (new : List Nat) :
    ((createOps old new).filter Op.isMove) = [] := by
  unfold createOps
  induction new.filter (fun k => (findRow old k).isNone) with
  | nil => rfl
  | cons k ks ih => simp [Op.isMove]

theorem moveOps_filter_isMove (old : List Row) (new : List Nat) :
    ((moveOps old new).filter Op.isMove) = moveOps old new := by
  apply List.filter_eq_self.mpr
  intro a ha
  rcases List.mem_map.mp ha with ⟨p, hp, rfl⟩
  rfl

theorem moveOps_length (old : List Row) (new : List Nat) (hnd : new.Nodup) :
    (moveOps old new).length
      = (retainedPairs old new).length - (lisOf (retainedIdx old new)).length := by
  unfold moveOps
  rw [List.length_map]
  have hsplit := List.length_eq_length_filter_add (l := retainedPairs old new)
    (fun p => (lisOf (retainedIdx old new)).contains p.2)
  have hkeep : ((retainedPairs old new).filter
      (fun p => (lisOf (retainedIdx old new)).contains p.2)).length
      = (lisOf (retainedIdx old new)).length := by
    have hmapfilter := List.filter_map (p := fun a => (lisOf (retainedIdx old new)).contains a)
      Prod.snd (retainedPairs old new)
    have hfm : ((retainedPairs old new).map Prod.snd).filter
        (fun a => (lisOf (retainedIdx old new)).contains a)
        = ((retainedPairs old new).filter
            (fun p => (lisOf (retainedIdx old new)).contains p.2)).map Prod.snd := by
      simpa [Function.comp] using hmapfilter
    have heq : (retainedIdx old new).filter
        (fun a => (lisOf (retainedIdx old new)).contains a)
        = lisOf (retainedIdx old new) :=
      filter_mem_eq_of_sublist (lisOf_sublist _) (retainedIdx_nodup hnd)
    have : (retainedIdx old new).filter
        (fun a => (lisOf (retainedIdx old new)).contains a)
        = ((retainedPairs old new).filter
            (fun p => (lisOf (retainedIdx old new)).contains p.2)).map Prod.snd := by
      unfold retainedIdx
      exact hfm
    rw [heq] at this
    calc ((retainedPairs old new).filter
          (fun p => (lisOf (retainedIdx old new)).contains p.2)).length
        = (((retainedPairs old new).filter
            (fun p => (lisOf (retainedIdx old new)).contains p.2)).map Prod.snd).length := by
          rw [List.length_map]
      _ = (lisOf (retainedIdx old new)).length := by rw [← this]
  omega

/-- C5: the number of physical move operations issued by a pass never exceeds
`n - LIS(n)`: for every strictly increasing subsequence `s` of the retained
rows' old indices taken in new order (in particular a longest one), the move
count is at most the retained-row count minus `s.length`. -/
theorem reconcile_moves_minimal (st : ListState) (new : List Nat)
    (s : List Nat) (hnd : new.Nodup)
    (hsub : List.Sublist s (retainedIdx st.rows new))
    (hincr : incrB s = true) :
    (((reconcile st new).2).filter Op.isMove).length
      ≤ (retainedPairs st.rows new).length - s.length := by
  have hs_le : s.length ≤ (lisOf (retainedIdx st.rows new)).length :=
    lisOf_maximal hsub hincr
  unfold reconcile
  split
  · simp
  · show (((removedRows st.rows new).map (fun r => Op.remove r.key) ++
        createOps st.rows new ++ moveOps st.rows new).filter Op.isMove).length
      ≤ (retainedPairs st.rows new).length - s.length
    rw [List.filter_append, List.filter_append, removeOps_filter_isMove,
      createOps_filter_isMove, moveOps_filter_isMove]
    rw [List.nil_append, List.nil_append]
    rw [moveOps_length st.rows new hnd]
    exact Nat.sub_le_sub_left hs_le _

/-- C5 witness: `[1, 2, 3] → [1, 3]` — retained old indices `[0, 2]`, the
increasing subsequence is the whole permutation, and zero moves are issued. -/
theorem reconcile_moves_minimal_witness :
    (([1, 3] : List Nat).Nodup ∧
      List.Sublist [0, 2] (retainedIdx (reconcile ⟨[], 0, []⟩ [1, 2, 3]).1.rows [1, 3]) ∧
      incrB [0, 2] = true) ∧
    (((reconcile (reconcile ⟨[], 0, []⟩ [1, 2, 3]).1 [1, 3]).2).filter Op.isMove).length
      ≤ (retainedPairs (reconcile ⟨[], 0, []⟩ [1, 2, 3]).1.rows [1, 3]).length - 2 :=
  ⟨⟨by decide, by decide, by decide⟩,
    reconcile_moves_minimal (reconcile ⟨[], 0, []⟩ [1, 2, 3]).1 [1, 3] [0, 2]
      (by decide) (by decide) (by decide)⟩

theorem findRow_map_update : ∀ {rows : List Row} {k : Nat} {r : Row} {v : Nat},
    findRow rows k = some r →
    findRow (rows.map (fun q => if q.key = k then { q with content := v } else q)) k
      = some { r with content := v } := by
  intro rows
  induction rows with
  | nil => intro k r v h; simp [findRow] at h
  | cons a as ih =>
      intro k r v h
      by_cases ha : a.key = k
      · rw [findRow_cons_of_eq ha] at h
        cases h
        rw [List.map_cons, if_pos ha]
        exact findRow_cons_of_eq ha
      · rw [findRow_cons_of_ne ha] at h
        rw [List.map_cons, if_neg ha]
        rw [findRow_cons_of_ne ha]
        exact ih h

/-- C6: a nested-reactivity mutation of one retained row's content updates
only that row's rendered content: the pass issues no create/remove/move
operation, key order, node identities, scope identities and the disposal log
are untouched, every other row is unchanged, the mutated row keeps its
ChildScope and OutputNodeSequence, and the rendered text changes exactly at
that row. -/
theorem nested_update_content_frame (st : ListState) (k v : Nat) (r : Row)
    (hfind : findRow st.rows k = some r) :
    (updateContent st k v).2 = [] ∧
    oldKeys (updateContent st k v).1 = oldKeys st ∧
    renderedNodes (updateContent st k v).1 = renderedNodes st ∧
    (updateContent st k v).1.rows.map Row.scope = st.rows.map Row.scope ∧
    (updateContent st k v).1.disposed = st.disposed ∧
    findRow (updateContent st k v).1.rows k = some { r with content := v } ∧
    (∀ q ∈ st.rows, q.key ≠ k → q ∈ (updateContent st k v).1.rows) ∧
    renderedText (updateContent st k v).1
      = st.rows.map (fun q => if q.key = k then v else q.content) := by
  refine ⟨rfl, ?_, ?_, ?_, rfl, ?_, ?_, ?_⟩
  · show (st.rows.map fun q =>
        if q.key = k then { q with content := v } else q).map Row.key
      = st.rows.map Row.key
    rw [List.map_map]
    apply List.map_congr_left
    intro q _
    by_cases hq : q.key = k <;> simp [hq]
  · show (st.rows.map fun q =>
        if q.key = k then { q with content := v } else q).map Row.nodes
      = st.rows.map Row.nodes
    rw [List.map_map]
    apply List.map_congr_left
    intro q _
    by_cases hq : q.key = k <;> simp [hq]
  · show (st.rows.map fun q =>
        if q.key = k then { q with content := v } else q).map Row.scope
      = st.rows.map Row.scope
    rw [List.map_map]
    apply List.map_congr_left
    intro q _
    by_cases hq : q.key = k <;> simp [hq]
  · exact findRow_map_update hfind
  · intro q hq hqk
    show q ∈ st.rows.map fun q => if q.key = k then { q with content := v } else q
    have : (fun q => if q.key = k then { q with content := v } else q) q = q := by
      simp [hqk]
    rw [← this]
    exact List.mem_map_of_mem _ hq
  · show (st.rows.map fun q =>
        if q.key = k then { q with content := v } else q).map Row.content
      = st.rows.map fun q => if q.key = k then v else q.content
    rw [List.map_map]
    apply List.map_congr_left
    intro q _
    by_cases hq : q.key = k <;> simp [hq]

/-- C6 witness: mutating row `1`'s inner value to `4` over the mounted
`[1, 2, 3]` list. -/
theorem nested_update_content_frame_witness :
    findRow (reconcile ⟨[], 0, []⟩ [1, 2, 3]).1.rows 1 = some ⟨1, 0, 1, 1⟩ ∧
    ((updateContent (reconcile ⟨[], 0, []⟩ [1, 2, 3]).1 1 4).2 = [] ∧
      oldKeys (updateContent (reconcile ⟨[], 0, []⟩ [1, 2, 3]).1 1 4).1
        = oldKeys (reconcile ⟨[], 0, []⟩ [1, 2, 3]).1 ∧
      renderedNodes (updateContent (reconcile ⟨[], 0, []⟩ [1, 2, 3]).1 1 4).1
        = renderedNodes (reconcile ⟨[], 0, []⟩ [1, 2, 3]).1 ∧
      (updateContent (reconcile ⟨[], 0, []⟩ [1, 2, 3]).1 1 4).1.rows.map Row.scope
        = (reconcile ⟨[], 0, []⟩ [1, 2, 3]).1.rows.map Row.scope ∧
      (updateContent (reconcile ⟨[], 0, []⟩ [1, 2, 3]).1 1 4).1.disposed
        = (reconcile ⟨[], 0, []⟩ [1, 2, 3]).1.disposed ∧
      findRow (updateContent (reconcile ⟨[], 0, []⟩ [1, 2, 3]).1 1 4).1.rows 1
        = some { (⟨1, 0, 1, 1⟩ : Row) with content := 4 } ∧
      (∀ q ∈ (reconcile ⟨[], 0, []⟩ [1, 2, 3]).1.rows, q.key ≠ 1 →
        q ∈ (updateContent (reconcile ⟨[], 0, []⟩ [1, 2, 3]).1 1 4).1.rows) ∧
      renderedText (updateContent (reconcile ⟨[], 0, []⟩ [1, 2, 3]).1 1 4).1
        = (reconcile ⟨[], 0, []⟩ [1, 2, 3]).1.rows.map
            (fun q => if q.key = 1 then 4 else q.content)) :=
  ⟨by decide,
    nested_update_content_frame (reconcile ⟨[], 0, []⟩ [1, 2, 3]).1 1 4 ⟨1, 0, 1, 1⟩
      (by decide)⟩

theorem reconcile_ops_keys (st : ListState) (new : List Nat) :
    ∀ op ∈ (reconcile st new).2, op.opKey ∈ oldKeys st ∨ op.opKey ∈ new := by
  intro op hop
  unfold reconcile at hop
  split at hop
  · simp at hop
  · show op.opKey ∈ oldKeys st ∨ op.opKey ∈ new
    have hop' : op ∈ (removedRows st.rows new).map (fun r => Op.remove r.key) ++
        createOps st.rows new ++ moveOps st.rows new := hop
    rcases List.mem_append.mp hop' with h12 | h3
    · rcases List.mem_append.mp h12 with h1 | h2
      · rcases List.mem_map.mp h1 with ⟨r, hr, rfl⟩
        left
        have : r ∈ st.rows := (List.mem_filter.mp hr).1
        exact List.mem_map_of_mem Row.key this
      · unfold createOps at h2
        rcases List.mem_map.mp h2 with ⟨kk, hkk, rfl⟩
        right
        exact List.mem_of_mem_filter hkk
    · unfold moveOps at h3
      rcases List.mem_map.mp h3 with ⟨p, hp, rfl⟩
      have hp' : p ∈ retainedPairs st.rows new := List.mem_of_mem_filter hp
      rcases List.mem_filterMap.mp hp' with ⟨kk, hkk, hf⟩
      rcases Option.map_eq_some'.mp hf with ⟨j, _, rfl⟩
      right
      exact hkk

/-- C7: a keyed list occupies one contiguous fragment of its parent's
children — placeable as sole content (`front = back = []`, empty sibling
list), among static siblings, or next to another keyed list — and a
reconciliation pass only touches the list's own rows: every issued operation
names a key of the old or new sequence, and the sibling segments before and
after the fragment (including the second list's nodes) are unchanged. -/
theorem keyed_list_sibling_frame (front back : List Nat) (stA stB : ListState)
    (new : List Nat) :
    (∀ op ∈ (reconcile stA new).2, op.opKey ∈ oldKeys stA ∨ op.opKey ∈ new) ∧
    (parentChildren front (reconcile stA new).1 stB back).take front.length
      = front ∧
    (parentChildren front (reconcile stA new).1 stB back).drop
        (front.length + (renderedNodes (reconcile stA new).1).length)
      = renderedNodes stB ++ back ∧
    parentChildren [] (reconcile stA new).1 stB []
      = renderedNodes (reconcile stA new).1 ++ renderedNodes stB := by
  refine ⟨reconcile_ops_keys stA new, ?_, ?_, ?_⟩
  · exact List.take_left front _
  · have hshape : parentChildren front (reconcile stA new).1 stB back
        = (front ++ renderedNodes (reconcile stA new).1) ++
            (renderedNodes stB ++ back) := by
      unfold parentChildren
      rw [List.append_assoc]
    rw [hshape, ← List.length_append, List.drop_left]
  · unfold parentChildren
    simp

/-- C8: a `NodeRef` cell that has not yet been set (state `none`, as produced
by `NodeRef::new`) makes `get` fail with the fatal "NodeRef is not set"
condition while `try_get` returns `none` without failing; after `set node`,
`try_get` (at the stored node's type) returns that node. -/
theorem noderef_unset_get_fails_try_get_none (t : Nat) (s : NodeRefState) (n : GNode) :
    NodeRef.get NodeRef.new t = Except.error ("NodeRef is not set") ∧
    NodeRef.try_get NodeRef.new t = none ∧
    NodeRef.try_get (NodeRef.set s n) n.ty = some n := by
  refine ⟨rfl, rfl, ?_⟩
  simp [NodeRef.set, NodeRef.try_get]

/-- C9 counterexample: the Node Reference Cell does not enforce a set-once
guard.  Concretely: allocate a cell, `set` node `⟨0, 1⟩`, then `set` node
`⟨0, 2⟩`; the second call replaces the stored value. -/
theorem noderef_set_once_counterexample :
    RefStore.tryGetRawRef
      (RefStore.setRef (RefStore.setRef (RefStore.alloc []).1 0 ⟨0, 1⟩) 0 ⟨0, 2⟩) 0
      = some ⟨0, 2⟩ ∧ (⟨0, 2⟩ : GNode) ≠ ⟨0, 1⟩ := by
  decide

/-- C9 (amended): `NodeRef::set` unconditionally stores the given node,
overwriting any previously stored value (last write wins); the write-once
discipline is a usage convention of the rendering backend, not enforced by the
cell. -/
theorem noderef_set_overwrites (st : RefStore) (r : Nat) (n₁ n₂ : GNode)
    (h : r < st.length) :
    RefStore.tryGetRawRef (RefStore.setRef (RefStore.setRef st r n₁) r n₂) r
      = some n₂ := by
  simp only [RefStore.tryGetRawRef, RefStore.setRef, NodeRef.try_get_raw,
    NodeRef.set, List.getD_eq_getElem?_getD, List.set_set]
  rw [List.getElem?_set_eq_of_lt _ h]
  rfl

/-- C9 witness: the amended overwrite behaviour at a concrete one-cell store. -/
theorem noderef_set_overwrites_witness :
    0 < ([none] : RefStore).length ∧
    RefStore.tryGetRawRef
      (RefStore.setRef (RefStore.setRef [none] 0 ⟨0, 1⟩) 0 ⟨0, 2⟩) 0 = some ⟨0, 2⟩ :=
  ⟨by decide, noderef_set_overwrites [none] 0 ⟨0, 1⟩ ⟨0, 2⟩ (by decide)⟩

/-- C10: cloning a `NodeRef` clones the `Rc`, aliasing the same cell: a `set`
through the clone is visible through the original (and symmetrically), while a
freshly allocated `NodeRef` (`new` / `default`) holds `none`. -/
theorem noderef_clone_aliases (st : RefStore) (r : Nat) (n : GNode)
    (h : r < st.length) :
    RefStore.tryGetRawRef (RefStore.setRef st (RefStore.cloneRef r) n) r = some n ∧
    RefStore.tryGetRawRef (RefStore.setRef st r n) (RefStore.cloneRef r) = some n ∧
    RefStore.tryGetRawRef (RefStore.alloc st).1 (RefStore.alloc st).2 = none := by
  refine ⟨?_, ?_, ?_⟩
  · simp [RefStore.tryGetRawRef, RefStore.setRef, RefStore.cloneRef,
      NodeRef.try_get_raw, NodeRef.set, List.getD_eq_getElem?_getD,
      List.getElem?_set_eq_of_lt, h]
  · simp [RefStore.tryGetRawRef, RefStore.setRef, RefStore.cloneRef,
      NodeRef.try_get_raw, NodeRef.set, List.getD_eq_getElem?_getD,
      List.getElem?_set_eq_of_lt, h]
  · simp [RefStore.tryGetRawRef, RefStore.alloc, NodeRef.try_get_raw, NodeRef.new,
      List.getD_eq_getElem?_getD, List.getElem?_append_right]

/-- C10 witness: aliasing at a concrete one-cell store. -/
theorem noderef_clone_aliases_witness :
    0 < ([none] : RefStore).length ∧
    (RefStore.tryGetRawRef (RefStore.setRef [none] (RefStore.cloneRef 0) ⟨0, 5⟩) 0
        = some ⟨0, 5⟩ ∧
      RefStore.tryGetRawRef (RefStore.setRef [none] 0 ⟨0, 5⟩) (RefStore.cloneRef 0)
        = some ⟨0, 5⟩ ∧
      RefStore.tryGetRawRef (RefStore.alloc [none]).1 (RefStore.alloc [none]).2
        = none) :=
  ⟨by decide, noderef_clone_aliases [none] 0 ⟨0, 5⟩ (by decide)⟩

end Sycamore
